import Mathlib

/-!
Shallow embedding of `modern_cpp_studies.cpp` (a generic memoization
facility, a composite-key hasher, a globally cached Fibonacci function,
and the CLI test drivers that exercise them), together with proofs of
the specified properties.

Modelling conventions:
* `size_t` is modelled as `Nat` with explicit `% 2 ^ 64` wherever the
  C++ arithmetic can wrap; shifts are `Nat.shiftLeft` / `Nat.shiftRight`.
* the `double` type `arithmetic_t` carries only integer values in this
  program, so it is modelled as `Int` together with an explicit
  round-to-nearest (ties-to-even) operation `roundD` applied wherever
  the C++ performs `double` arithmetic whose exact integer result can
  exceed the `2 ^ 53` precision limit; below that limit `double`
  arithmetic on integers is exact and the rounding is the identity.
  `unordered_map` compares keys with `==`, which on integer-valued
  doubles is integer equality.
* `std::unordered_map` is modelled as an association list observed only
  through key lookup; `cache[key] = v` (insert-or-assign) is modelled as
  consing `(key, v)` in front, which has the same lookup semantics.
* `std::expected` is modelled as `Except`; a thrown exception from a
  wrapped callable is modelled as an `Except.error` result; undefined
  behaviour (out-of-bounds `operator[]`, dereferencing a failed
  `expected`) is modelled as a `none` outcome of the surrounding driver.
* a C++ callable with internal side effects (e.g. an invocation counter)
  is modelled as a state-passing function `σ → α → β × σ`.
-/

/-- Association-list model of `std::unordered_map`: lookup by key
equality (the map resolves hash collisions by `==`, so lookup by
decidable equality is its observable behaviour). -/
def lookupKey {α β : Type} [DecidableEq α] (a : α) : List (α × β) → Option β
  | [] => none
  | (k, v) :: rest => if a = k then some v else lookupKey a rest

/-- The golden-ratio mixing constant `0x9e3779b9` from
`tuple_hash<T, Ts...>::operator()`. -/
def HASH_K : Nat := 0x9e3779b9

/-- Modulus of `size_t` arithmetic (64-bit). -/
def U64 : Nat := 2 ^ 64

/-- One combining step of `tuple_hash<T, Ts...>::operator()`:
`hash_value ^= rest + 0x9e3779b9 + (hash_value << 6) + (hash_value >> 2)`
in `size_t` arithmetic.  `h` is the current `hash_value`, `e` the value
being mixed in. -/
def combine (h e : Nat) : Nat :=
  h ^^^ ((e + HASH_K + (h <<< 6) % U64 + h >>> 2) % U64)

/-- Body of `tuple_hash<T, Ts...>::operator()` for a non-empty pack:
start from the first element's hash; if the tail pack is non-empty,
combine it with `tuple_hash<Ts...>` of the tail (the `if constexpr
(sizeof...(Ts) > 0)` branch).  Arguments are the element hashes, which
`std::hash` supplies externally. -/
def tuple_hash1 (e : Nat) (rest : List Nat) : Nat :=
  match rest with
  | [] => e
  | e2 :: rest2 => combine e (tuple_hash1 e2 rest2)

/-- `tuple_hash` on a list of element hashes.  The primary template
`template <typename... Ts> struct tuple_hash;` is declared but never
defined, so the arity-zero instantiation provides no hash at all: the
empty list yields `none`.  Every non-empty arity is handled by the
`tuple_hash<T, Ts...>` specialisation, `tuple_hash1`. -/
def tuple_hash : List Nat → Option Nat
  | [] => none
  | e :: rest => some (tuple_hash1 e rest)

/-- Cache of the functor returned by `memo`: a map from the argument
tuple to the stored result. -/
abbrev MCache (α β : Type) := List (α × β)

/-- One call of the functor returned by `memo` (the mutable lambda at
lines 88–94): build the key, on a miss invoke `func` and store the
result, then return the cached value.  `α` is the argument-tuple type,
`σ` the wrapped callable's internal state (it is threaded so that the
number of invocations of `func` is observable). -/
def memoCall {α β σ : Type} [DecidableEq α] (f : σ → α → β × σ)
    (st : σ × MCache α β) (a : α) : β × (σ × MCache α β) :=
  match lookupKey a st.2 with
  | some v => (v, st)
  | none =>
    let r := f st.1 a
    (r.1, (r.2, (a, r.1) :: st.2))

/-- A sequence of calls to the memoized functor, keeping only the state. -/
def runCalls {α β σ : Type} [DecidableEq α] (f : σ → α → β × σ)
    (st : σ × MCache α β) (as : List α) : σ × MCache α β :=
  as.foldl (fun s a => (memoCall f s a).2) st

/-- Instrument a callable with an invocation counter: each invocation
increments the counter by one (the "counting function" of the spec). -/
def countInvocations {α β σ : Type} (f : σ → α → β × σ) :
    (σ × Nat) → α → β × (σ × Nat) :=
  fun p a =>
    let r := f p.1 a
    (r.1, (r.2, p.2 + 1))

/-- One call of the `memo` functor when the wrapped callable may fail
(throw).  In C++17 the right-hand side of `cache[key] = func(args...)`
is sequenced before `operator[]`, so a throwing `func` leaves the cache
untouched and the exception propagates; the callable's own state `σ`
still advances (its side effects happened before the throw). -/
def memoCallE {α β σ ε : Type} [DecidableEq α] (f : σ → α → Except ε β × σ)
    (st : σ × MCache α β) (a : α) : Except ε β × (σ × MCache α β) :=
  match lookupKey a st.2 with
  | some v => (Except.ok v, st)
  | none =>
    match f st.1 a with
    | (Except.ok v, s2) => (Except.ok v, (s2, (a, v) :: st.2))
    | (Except.error e, s2) => (Except.error e, (s2, st.2))

/-- A concrete fallible callable for exercising `memoCallE`: fails on
its first invocation (internal state 0), succeeds with result 7
afterwards, counting invocations in its state. -/
def flaky : Nat → Nat → Except Nat Nat × Nat :=
  fun s _ => (if s = 0 then Except.error 0 else Except.ok 7, s + 1)

/-- The naive recursive `fib` (lines 44–48) restricted to `Nat`, which
is also the spec's closed recursive definition
`fib(0)=1, fib(1)=1, fib(n)=fib(n-1)+fib(n-2)`. -/
def fib : Nat → Nat
  | 0 => 1
  | 1 => 1
  | n + 2 => fib (n + 1) + fib n

/-- The source `fib` at an integer input: `n <= 1` yields 1 (so every
non-positive input is a base case) and otherwise the two-step
recurrence applies; on `Int` this is exactly `fib n.toNat`. -/
def fibInt (n : Int) : Int := (fib n.toNat : Int)

/-- The global `fib_memo_cache`: a map from the numeric argument to the
numeric result. -/
abbrev FCache := List (Int × Int)

/-- Fuelled interpreter of `fib_memo` (lines 51–56).  The C++ function
recurses with no a-priori bound, so the embedding makes the recursion
depth explicit: `none` means the fuel ran out before the call returned.
On a miss it evaluates `fib_memo(n-1)` then `fib_memo(n-2)` (the spec's
stated order; C++ leaves the operand order of `+` unspecified, and every
property proved below is insensitive to that choice), stores the sum
under `n`, and returns the cached value.

This interpreter computes the `double` key arithmetic exactly in `Int`,
which is faithful only while the keys stay at or below the `2 ^ 53`
precision limit of `double` — true for every property stated against it
here (keys in `[0, 30]`, base cases, and calls that actually return).
`fib_memo_fuelD` below models the key and value arithmetic with the
actual `double` rounding and is the authority beyond that limit. -/
def fib_memo_fuel : Nat → FCache → Int → Option (Int × FCache)
  | 0, _, _ => none
  | fuel + 1, c, n =>
    match lookupKey n c with
    | some v => some (v, c)
    | none =>
      if n ≤ 1 then
        some (1, (n, 1) :: c)
      else
        match fib_memo_fuel fuel c (n - 1) with
        | none => none
        | some p1 =>
          match fib_memo_fuel fuel p1.2 (n - 2) with
          | none => none
          | some p2 => some (p1.1 + p2.1, (n, p1.1 + p2.1) :: p2.2)

/-- `fib_memo` as a function of the current cache: its value and the
updated cache.  Fuel `n.toNat + 1` is proved sufficient below
(`fib_memo_total`), so the default is never taken. -/
def fib_memo (c : FCache) (n : Int) : Int × FCache :=
  (fib_memo_fuel (n.toNat + 1) c n).getD (1, c)

/-- Every entry of the cache stores the true Fibonacci value of its key. -/
def Good (c : FCache) : Prop := ∀ k v, lookupKey k c = some v → v = fibInt k

/-- States of the shared `fib_memo_cache` reachable from the empty
initial table by top-level `fib_memo` calls. -/
inductive Reachable : FCache → Prop
  | nil : Reachable []
  | step (c : FCache) (m : Int) (r : Int × FCache) :
      Reachable c → fib_memo_fuel (m.toNat + 1) c m = some r → Reachable r.2

/-- Floor of log base 2, computed with an explicit recursion bound (the
first argument), so that the definition is structural and evaluates in
the kernel. -/
def log2fuel : Nat → Nat → Nat
  | 0, _ => 0
  | fuel + 1, x => if 2 ≤ x then log2fuel fuel (x / 2) + 1 else 0

/-- Floor of log base 2 of a natural number (0 for 0 and 1); the number
itself always bounds the recursion depth. -/
def floorLog2 (x : Nat) : Nat := log2fuel x x

/-- Round a natural number to the nearest value representable in an
IEEE-754 `double` (round-to-nearest, ties-to-even).  Every integer up
to `2 ^ 53` is exactly representable; in the binade of a larger `x` the
representable values are the multiples of `2 ^ (floorLog2 x - 52)`, and
a tie goes to the multiple with even significand.  (Faithful below the
`double` overflow threshold `2 ^ 1024`, far beyond every value whose
rounding any property here depends on.) -/
def roundDNat (x : Nat) : Nat :=
  if x ≤ 2 ^ 53 then
    x
  else
    let s := floorLog2 x - 52
    let q := x / 2 ^ s
    let r := x % 2 ^ s
    if 2 * r < 2 ^ s then q * 2 ^ s
    else if 2 ^ s < 2 * r then (q + 1) * 2 ^ s
    else if q % 2 = 0 then q * 2 ^ s else (q + 1) * 2 ^ s

/-- Round an integer to the nearest `double`-representable value. -/
def roundD (x : Int) : Int :=
  if x < 0 then -(roundDNat (-x).toNat : Int) else (roundDNat x.toNat : Int)

/-- `double` subtraction of two integer-valued doubles: IEEE-754
subtraction computes the exact integer difference and rounds it to the
nearest representable value. -/
def dsub (x y : Int) : Int := roundD (x - y)

/-- `double` addition of two integer-valued doubles. -/
def dadd (x y : Int) : Int := roundD (x + y)

/-- Fuelled interpreter of `fib_memo` (lines 51–56) with the `double`
arithmetic of `arithmetic_t` modelled faithfully: the key expressions
`n - 1` and `n - 2` and the stored sum are each rounded to the nearest
`double`-representable value.  Below the `2 ^ 53` precision limit this
agrees with `fib_memo_fuel`; above it the rounding is what makes e.g.
`n - 1` equal to `n` again at `n = 2 ^ 54`. -/
def fib_memo_fuelD : Nat → FCache → Int → Option (Int × FCache)
  | 0, _, _ => none
  | fuel + 1, c, n =>
    match lookupKey n c with
    | some v => some (v, c)
    | none =>
      if n ≤ 1 then
        some (1, (n, 1) :: c)
      else
        match fib_memo_fuelD fuel c (dsub n 1) with
        | none => none
        | some p1 =>
          match fib_memo_fuelD fuel p1.2 (dsub n 2) with
          | none => none
          | some p2 =>
            some (dadd p1.1 p2.1, (n, dadd p1.1 p2.1) :: p2.2)

/-- `slow_func` (lines 58–62): returns its argument; the
`sleep_for` is a timing effect only and is not modelled. -/
def slow_func (seconds : Nat) : Nat := seconds

/-- Model of `std::from_chars` as used by `parse<arithmetic_t>`,
restricted to the decimal integer literals the properties exercise:
a non-empty all-digit string decodes to its value, anything else fails. -/
def fromChars (s : String) : Option Int :=
  if s.length ≠ 0 ∧ s.data.all Char.isDigit then
    some (s.data.foldl (fun n c => n * 10 + (c.toNat - 48)) 0)
  else
    none

/-- `parse` (lines 20–30): run `from_chars`; if the error code is clear
return the value, otherwise return the error (error detail collapsed to
`Unit`). -/
def parse (s : String) : Except Unit Int :=
  match fromChars s with
  | some v => Except.ok v
  | none => Except.error ()

/-- `test_memo` (lines 129–147) on the tail of the command line.
Decoding dereferences each `parse` result without a check, and
`args[0]` is read without a bounds check; both are undefined behaviour,
modelled as a `none` outcome.  On success the printed value is the
result of the eighth call to the memoized `slow_func`. -/
def test_memo (tail : List String) : Option Nat :=
  match tail.mapM (fun s => (parse s).toOption) with
  | none => none
  | some args =>
    match args.head? with
    | none => none
    | some a0 =>
      let g : Unit → Nat → Nat × Unit := fun u k => (slow_func k, u)
      let st := runCalls g ((), ([] : MCache Nat Nat)) (List.replicate 7 a0.toNat)
      some (memoCall g st a0.toNat).1

/-- `test_fib_memo` (lines 117–127) on the tail of the command line:
take at most one decoded argument; with fewer than one, return before
printing (`some none`); otherwise print `fib_memo` of it, starting from
the program's empty global cache.  The unchecked dereference of a
failed `parse` is `none` (undefined behaviour). -/
def test_fib_memo (tail : List String) : Option (Option Int) :=
  match tail.take 1 with
  | [] => some none
  | s :: _ =>
    match (parse s).toOption with
    | none => none
    | some v => some (some (fib_memo [] v).1)

/-! ### Helper lemmas -/

theorem lookupKey_cons_self {α β : Type} [DecidableEq α] (a : α) (v : β)
    (l : List (α × β)) : lookupKey a ((a, v) :: l) = some v := by
  simp [lookupKey]

theorem memoCall_hit {α β σ : Type} [DecidableEq α] (f : σ → α → β × σ)
    {st : σ × MCache α β} {a : α} {v : β} (h : lookupKey a st.2 = some v) :
    memoCall f st a = (v, st) := by
  unfold memoCall
  rw [h]

theorem memoCall_lookup_after {α β σ : Type} [DecidableEq α]
    (f : σ → α → β × σ) (st : σ × MCache α β) (a : α) :
    lookupKey a (memoCall f st a).2.2 = some (memoCall f st a).1 := by
  unfold memoCall
  cases h : lookupKey a st.2 with
  | none => simp [lookupKey]
  | some v => simpa using h

theorem runCalls_hit_fixed {α β σ : Type} [DecidableEq α]
    (f : σ → α → β × σ) (st : σ × MCache α β) (a : α) (n : Nat) {v : β}
    (h : lookupKey a st.2 = some v) :
    runCalls f st (List.replicate n a) = st := by
  induction n with
  | zero => rfl
  | succ n ih =>
    have hstep : (memoCall f st a).2 = st := by rw [memoCall_hit f h]
    calc runCalls f st (List.replicate (n + 1) a)
        = runCalls f (memoCall f st a).2 (List.replicate n a) := rfl
      _ = runCalls f st (List.replicate n a) := by rw [hstep]
      _ = st := ih

theorem tuple_hash1_append (l : List Nat) (e x : Nat) :
    tuple_hash1 e (l ++ [x]) = List.foldr combine x (e :: l) := by
  induction l generalizing e with
  | nil => rfl
  | cons a l ih =>
    show combine e (tuple_hash1 a (l ++ [x])) = _
    rw [ih a]
    rfl

/-- C3 counterexample: on the element hashes `[1, 2, 3]` the composite
key hasher does not equal the left-to-right fold the claim describes
(the code mixes the first hash with the combined hash of all remaining
elements, not with each subsequent element's hash in turn). -/
theorem tuple_hash_not_left_fold_cex :
    tuple_hash [1, 2, 3] ≠ some (List.foldl combine 1 [2, 3]) := by
  decide

/-- C3 (amended): for every ordered list of two or more element hashes
the composite key hasher nests from the right: the hash of
`l ++ [x]` is `foldr combine x l`, i.e. the first element's hash is
combined once with the composite hash of the remaining elements via
`h XOR (rest + K + (h << 6) + (h >> 2))`; for exactly two elements this
coincides with the claimed left-to-right fold. -/
theorem tuple_hash_right_nested (l : List Nat) (x : Nat) :
    tuple_hash (l ++ [x]) = some (List.foldr combine x l)
    ∧ ∀ a b : Nat, tuple_hash [a, b] = some (List.foldl combine a [b]) := by
  constructor
  · cases l with
    | nil => rfl
    | cons e l => exact congrArg some (tuple_hash1_append l e x)
  · intro a b
    rfl

/-- C4 counterexample: the arity-zero hasher yields no hash value at
all (the primary template is declared but never defined), so there is
no fixed constant it returns. -/
theorem tuple_hash_arity_zero_cex :
    ¬ ∃ k : Nat, tuple_hash [] = some k := by
  intro h
  obtain ⟨k, hk⟩ := h
  simp [tuple_hash] at hk

/-- C4 (amended): the composite key hasher has no arity-zero case —
the primary template is only declared, never defined, so an arity-zero
argument list yields no hash; the recursion bottoms out at arity one,
which returns the single element's hash unchanged. -/
theorem tuple_hash_no_arity_zero :
    tuple_hash [] = none ∧ ∀ e : Nat, tuple_hash [e] = some e :=
  ⟨rfl, fun _ => rfl⟩

/-- C1: wrapping any callable `f` (instrumented with an invocation
counter) and calling the wrapper with key `a`, then any number `n` of
further times with the same key: the first call invokes `f` at most
once (counter ≤ 1 from a zero start), every later call leaves the
entire state — cache and counter — unchanged (so `f` is never
re-invoked), and returns the stored value of the first call.  In
particular a counting function called twice with identical arguments is
invoked exactly once. -/
theorem memo_invokes_underlying_at_most_once {α β σ : Type} [DecidableEq α]
    (f : σ → α → β × σ) (s : σ) (c : MCache α β) (a : α) (n : Nat) :
    (memoCall (countInvocations f) ((s, 0), c) a).2.1.2 ≤ 1
    ∧ runCalls (countInvocations f) (memoCall (countInvocations f) ((s, 0), c) a).2
        (List.replicate n a) = (memoCall (countInvocations f) ((s, 0), c) a).2
    ∧ (memoCall (countInvocations f) (memoCall (countInvocations f) ((s, 0), c) a).2 a).1
        = (memoCall (countInvocations f) ((s, 0), c) a).1 := by
  have hafter := memoCall_lookup_after (countInvocations f) ((s, 0), c) a
  refine ⟨?_, ?_, ?_⟩
  · unfold memoCall
    cases h : lookupKey a c with
    | none => simp [countInvocations]
    | some v => simp [show lookupKey a ((s, 0), c).2 = some v from h]
  · exact runCalls_hit_fixed _ _ _ _ hafter
  · rw [memoCall_hit (countInvocations f) hafter]

/-- C5: if the wrapped callable fails on a cache miss for key `a`, the
adapter caches nothing under `a` and propagates the failure unchanged;
the retry with the same key invokes the callable again (its internal
state advances from `s1` to `s2`), and a successful retry is cached. -/
theorem memo_failure_not_cached {α β σ ε : Type} [DecidableEq α]
    (f : σ → α → Except ε β × σ) (s s1 s2 : σ) (c : MCache α β) (a : α)
    (e : ε) (v : β) (h0 : lookupKey a c = none)
    (h1 : f s a = (Except.error e, s1)) (h2 : f s1 a = (Except.ok v, s2)) :
    memoCallE f (s, c) a = (Except.error e, (s1, c))
    ∧ memoCallE f (s1, c) a = (Except.ok v, (s2, (a, v) :: c)) := by
  unfold memoCallE
  rw [show ((s, c) : σ × MCache α β).2 = c from rfl, h0]
  constructor
  · simp [h1]
  · simp [h2]

/-- Witness for C5 at the concrete fallible callable `flaky`, key 5,
empty cache: the first invocation fails and caches nothing, the retry
succeeds and caches the result. -/
theorem memo_failure_not_cached_witness :
    memoCallE flaky (0, ([] : MCache Nat Nat)) 5 = (Except.error 0, (1, []))
    ∧ memoCallE flaky (1, ([] : MCache Nat Nat)) 5 = (Except.ok 7, (2, [(5, 7)])) :=
  memo_failure_not_cached flaky 0 1 2 [] 5 0 7 rfl rfl rfl

/-- C6 (defect evaluation): `parse` rejects the malformed literal
`"abc"`, and `test_memo` run with that single tail argument
dereferences the failed parse without a check — undefined behaviour
(modelled `none`) instead of a reported error. -/
theorem cli_parse_failure_unchecked :
    parse ("abc") = Except.error () ∧ test_memo ["abc"] = none :=
  ⟨rfl, rfl⟩

/-- C10: with zero tail arguments `test_memo` reads `args[0]` from an
empty vector without a bounds check — undefined behaviour (modelled
`none`) — while `test_fib_memo` returns early without printing
(`some none`). -/
theorem test_memo_missing_arg_oob :
    test_memo [] = none ∧ test_fib_memo [] = some none :=
  ⟨rfl, rfl⟩


theorem fib_memo_fuel_hit (fuel : Nat) (c : FCache) (n : Int) (v : Int)
    (hl : lookupKey n c = some v) :
    fib_memo_fuel (fuel + 1) c n = some (v, c) := by
  rw [fib_memo_fuel, hl]

theorem fib_memo_fuel_miss_base (fuel : Nat) (c : FCache) (n : Int)
    (hl : lookupKey n c = none) (hn : n ≤ 1) :
    fib_memo_fuel (fuel + 1) c n = some (1, (n, 1) :: c) := by
  rw [fib_memo_fuel, hl]
  simp [hn]

theorem fib_memo_fuel_miss_rec (fuel : Nat) (c : FCache) (n : Int)
    (p1 p2 : Int × FCache) (hl : lookupKey n c = none) (hn : ¬ n ≤ 1)
    (h1 : fib_memo_fuel fuel c (n - 1) = some p1)
    (h2 : fib_memo_fuel fuel p1.2 (n - 2) = some p2) :
    fib_memo_fuel (fuel + 1) c n
      = some (p1.1 + p2.1, (n, p1.1 + p2.1) :: p2.2) := by
  rw [fib_memo_fuel, hl]
  simp [hn, h1, h2]

theorem fib_memo_fuel_mono : ∀ {fuel fuel2 : Nat} {c : FCache} {n : Int}
    {r : Int × FCache}, fib_memo_fuel fuel c n = some r → fuel ≤ fuel2 →
    fib_memo_fuel fuel2 c n = some r := by
  intro fuel
  induction fuel with
  | zero =>
    intro fuel2 c n r h _
    simp [fib_memo_fuel] at h
  | succ fuel ih =>
    intro fuel2 c n r h hle
    obtain ⟨fuel3, rfl⟩ : ∃ k, fuel2 = k + 1 := ⟨fuel2 - 1, by omega⟩
    have hle3 : fuel ≤ fuel3 := by omega
    rw [fib_memo_fuel] at h
    split at h
    · rename_i v hl
      rw [fib_memo_fuel_hit fuel3 c n v hl]
      exact h
    · rename_i hl
      split at h
      · rename_i hn
        rw [fib_memo_fuel_miss_base fuel3 c n hl hn]
        exact h
      · rename_i hn
        split at h
        · exact absurd h (by simp)
        · rename_i p1 h1
          split at h
          · exact absurd h (by simp)
          · rename_i p2 h2
            rw [fib_memo_fuel_miss_rec fuel3 c n p1 p2 hl hn (ih h1 hle3) (ih h2 hle3)]
            exact h

theorem fib_memo_fuel_isSome : ∀ (fuel : Nat) (c : FCache) (n : Int),
    n.toNat < fuel → ∃ r, fib_memo_fuel fuel c n = some r := by
  intro fuel
  induction fuel with
  | zero =>
    intro c n h
    omega
  | succ fuel ih =>
    intro c n h
    cases hl : lookupKey n c with
    | some v => exact ⟨(v, c), fib_memo_fuel_hit fuel c n v hl⟩
    | none =>
      by_cases hn : n ≤ 1
      · exact ⟨_, fib_memo_fuel_miss_base fuel c n hl hn⟩
      · obtain ⟨p1, h1⟩ := ih c (n - 1) (by omega)
        obtain ⟨p2, h2⟩ := ih p1.2 (n - 2) (by omega)
        exact ⟨_, fib_memo_fuel_miss_rec fuel c n p1 p2 hl hn h1 h2⟩

theorem fib_memo_total {c : FCache} {n : Int} {fuel : Nat} (h : n.toNat < fuel) :
    fib_memo_fuel fuel c n = some (fib_memo c n) := by
  obtain ⟨r, hr⟩ := fib_memo_fuel_isSome (n.toNat + 1) c n (by omega)
  have he : fib_memo c n = r := by
    rw [fib_memo, hr]
    rfl
  rw [he]
  exact fib_memo_fuel_mono hr (by omega)

theorem fibInt_of_le_one {n : Int} (h : n ≤ 1) : fibInt n = 1 := by
  unfold fibInt
  have h2 : n.toNat = 0 ∨ n.toNat = 1 := by omega
  rcases h2 with h0 | h1
  · rw [h0]
    rfl
  · rw [h1]
    rfl

theorem fibInt_rec {n : Int} (h : 2 ≤ n) :
    fibInt n = fibInt (n - 1) + fibInt (n - 2) := by
  unfold fibInt
  have h0 : n.toNat = (n - 2).toNat + 2 := by omega
  have h1 : (n - 1).toNat = (n - 2).toNat + 1 := by omega
  rw [h0, h1]
  rw [show fib ((n - 2).toNat + 2) = fib ((n - 2).toNat + 1) + fib (n - 2).toNat from rfl]
  push_cast
  ring

theorem good_nil : Good [] := by
  intro k v h
  simp [lookupKey] at h

theorem good_insert {c : FCache} (hc : Good c) (n : Int) :
    Good ((n, fibInt n) :: c) := by
  intro k v h
  unfold lookupKey at h
  split at h
  · rename_i heq
    injection h with h2
    rw [heq, ← h2]
  · exact hc k v h

theorem fib_memo_fuel_good : ∀ (fuel : Nat) (c : FCache) (n : Int)
    (r : Int × FCache), Good c → fib_memo_fuel fuel c n = some r →
    r.1 = fibInt n ∧ Good r.2 ∧ lookupKey n r.2 = some r.1 := by
  intro fuel
  induction fuel with
  | zero =>
    intro c n r _ h
    simp [fib_memo_fuel] at h
  | succ fuel ih =>
    intro c n r hg h
    rw [fib_memo_fuel] at h
    split at h
    · rename_i v hl
      injection h with h2
      subst h2
      exact ⟨hg n v hl, hg, hl⟩
    · rename_i hl
      split at h
      · rename_i hn
        injection h with h2
        subst h2
        have hv : (1 : Int) = fibInt n := (fibInt_of_le_one hn).symm
        refine ⟨hv, ?_, lookupKey_cons_self n 1 c⟩
        rw [hv]
        exact good_insert hg n
      · rename_i hn
        split at h
        · exact absurd h (by simp)
        · rename_i p1 h1
          split at h
          · exact absurd h (by simp)
          · rename_i p2 h2
            injection h with h3
            subst h3
            obtain ⟨hv1, hg1, _⟩ := ih c (n - 1) p1 hg h1
            obtain ⟨hv2, hg2, _⟩ := ih p1.2 (n - 2) p2 hg1 h2
            have hv : p1.1 + p2.1 = fibInt n := by
              rw [hv1, hv2]
              exact (fibInt_rec (by omega)).symm
            refine ⟨hv, ?_, lookupKey_cons_self n (p1.1 + p2.1) p2.2⟩
            rw [hv]
            exact good_insert hg2 n

theorem reach_good {c : FCache} (h : Reachable c) : Good c := by
  induction h with
  | nil => exact good_nil
  | step c m r _ hstep ih => exact (fib_memo_fuel_good _ _ _ _ ih hstep).2.1

/-- C2: for every cache state reachable by prior `fib_memo` calls (in
particular the initial empty table, in any call order) and every `n` in
`[0, 30]`, `fib_memo(n)` returns the value of the closed recursive
definition `fib(0)=1, fib(1)=1, fib(n)=fib(n-1)+fib(n-2)`. -/
theorem fib_memo_matches_recursive_fib (c : FCache) (n : Int)
    (hr : Reachable c) (h0 : 0 ≤ n) (h30 : n ≤ 30) :
    (fib_memo c n).1 = (fib n.toNat : Int) := by
  have ht : fib_memo_fuel (n.toNat + 1) c n = some (fib_memo c n) :=
    fib_memo_total (by omega)
  exact (fib_memo_fuel_good _ _ _ _ (reach_good hr) ht).1

/-- Witness for C2 at the spec's own scenario: calling `fib_memo(10)`
first (populating the shared table) and then `fib_memo(5)` still yields
the closed recursive definition's value. -/
theorem fib_memo_matches_recursive_fib_witness :
    (fib_memo ((fib_memo ([] : FCache) 10).2) 5).1 = (fib (5 : Int).toNat : Int) := by
  have hr : Reachable ((fib_memo ([] : FCache) 10).2) :=
    Reachable.step [] 10 (fib_memo [] 10) Reachable.nil (by decide)
  exact fib_memo_matches_recursive_fib _ 5 hr (by decide) (by decide)

theorem roundD_exact {x : Int} (h0 : 0 ≤ x) (h53 : x ≤ 2 ^ 53) :
    roundD x = x := by
  have hp : (2 : Int) ^ 53 = 9007199254740992 := by norm_num
  have hq : (2 : Nat) ^ 53 = 9007199254740992 := by norm_num
  unfold roundD
  rw [if_neg (by omega), roundDNat, if_pos (by omega)]
  omega

theorem fib_memo_fuelD_hit (fuel : Nat) (c : FCache) (n : Int) (v : Int)
    (hl : lookupKey n c = some v) :
    fib_memo_fuelD (fuel + 1) c n = some (v, c) := by
  rw [fib_memo_fuelD, hl]

theorem fib_memo_fuelD_miss_base (fuel : Nat) (c : FCache) (n : Int)
    (hl : lookupKey n c = none) (hn : n ≤ 1) :
    fib_memo_fuelD (fuel + 1) c n = some (1, (n, 1) :: c) := by
  rw [fib_memo_fuelD, hl]
  simp [hn]

theorem fib_memo_fuelD_miss_rec (fuel : Nat) (c : FCache) (n : Int)
    (p1 p2 : Int × FCache) (hl : lookupKey n c = none) (hn : ¬ n ≤ 1)
    (h1 : fib_memo_fuelD fuel c (dsub n 1) = some p1)
    (h2 : fib_memo_fuelD fuel p1.2 (dsub n 2) = some p2) :
    fib_memo_fuelD (fuel + 1) c n
      = some (dadd p1.1 p2.1, (n, dadd p1.1 p2.1) :: p2.2) := by
  rw [fib_memo_fuelD, hl]
  simp [hn, h1, h2]

theorem fib_memo_fuelD_isSome : ∀ (fuel : Nat) (c : FCache) (n : Int),
    0 ≤ n → n ≤ 2 ^ 53 → n.toNat < fuel →
    ∃ r, fib_memo_fuelD fuel c n = some r := by
  intro fuel
  induction fuel with
  | zero =>
    intro c n _ _ h
    omega
  | succ fuel ih =>
    intro c n h0 h53 hf
    cases hl : lookupKey n c with
    | some v => exact ⟨(v, c), fib_memo_fuelD_hit fuel c n v hl⟩
    | none =>
      by_cases hn : n ≤ 1
      · exact ⟨_, fib_memo_fuelD_miss_base fuel c n hl hn⟩
      · have hp : (2 : Int) ^ 53 = 9007199254740992 := by norm_num
        have hd1 : dsub n 1 = n - 1 := roundD_exact (by omega) (by omega)
        have hd2 : dsub n 2 = n - 2 := roundD_exact (by omega) (by omega)
        obtain ⟨p1, h1⟩ := ih c (n - 1) (by omega) (by omega) (by omega)
        obtain ⟨p2, h2⟩ := ih p1.2 (n - 2) (by omega) (by omega) (by omega)
        rw [← hd1] at h1
        rw [← hd2] at h2
        exact ⟨_, fib_memo_fuelD_miss_rec fuel c n p1 p2 hl hn h1 h2⟩

theorem fib_memo_fuelD_pow54_none :
    ∀ fuel : Nat, fib_memo_fuelD fuel ([] : FCache) (2 ^ 54) = none := by
  have key : ∀ fuel : Nat,
      fib_memo_fuelD fuel ([] : FCache) (18014398509481984 : Int) = none := by
    intro fuel
    induction fuel with
    | zero => rfl
    | succ fuel ih =>
      have hl : lookupKey (18014398509481984 : Int) ([] : FCache) = none := rfl
      have hd : dsub (18014398509481984 : Int) 1 = 18014398509481984 := by decide
      have hn : ¬((18014398509481984 : Int) ≤ 1) := by norm_num
      rw [fib_memo_fuelD, hl]
      simp [hn, hd, ih]
  intro fuel
  have he : ((2 : Int) ^ 54) = 18014398509481984 := by norm_num
  rw [he]
  exact key fuel

/-- C8 counterexample: at the non-negative integral input `n = 2 ^ 54`
(exactly representable as a `double`) on the empty table, `fib_memo`
never returns: the `double` subtraction `n - 1` lands exactly between
the representable neighbours `2 ^ 54 - 2` and `2 ^ 54` and ties-to-even
rounds it back to `2 ^ 54`, so the cache-miss recursion re-queries the
same uncached key with the same table forever — no amount of fuel makes
the faithfully rounded interpreter return. -/
theorem fib_memo_nonterminating_cex :
    ¬ ∃ fuel : Nat,
      (fib_memo_fuelD fuel ([] : FCache) (2 ^ 54)).isSome = true := by
  intro hex
  obtain ⟨fuel, hfuel⟩ := hex
  rw [fib_memo_fuelD_pow54_none fuel] at hfuel
  exact absurd hfuel (by simp)

/-- C8 (amended): `fib_memo` terminates for every non-negative integral
input `n` up to the `double` precision limit `2 ^ 53` — the range on
which the key arithmetic is exact — regardless of the prior contents of
the shared table: the faithfully rounded interpreter returns a value
for any fuel exceeding `n.toNat`.  Beyond that limit termination fails
(`fib_memo_nonterminating_cex`). -/
theorem fib_memo_terminates_below_precision (c : FCache) (n : Int)
    (fuel : Nat) (h0 : 0 ≤ n) (h53 : n ≤ 2 ^ 53) (hf : n.toNat < fuel) :
    (fib_memo_fuelD fuel c n).isSome = true := by
  obtain ⟨r, hr⟩ := fib_memo_fuelD_isSome fuel c n h0 h53 hf
  rw [hr]
  rfl

/-- Witness for C8's amended claim at `n = 3`, fuel 4, empty cache. -/
theorem fib_memo_terminates_below_precision_witness :
    (fib_memo_fuelD 4 ([] : FCache) 3).isSome = true :=
  fib_memo_terminates_below_precision [] 3 4 (by decide) (by decide) (by decide)

/-- C9: for every input `n ≤ 1`, negative inputs included, `fib_memo`
on any reachable shared table returns 1 and afterwards the table maps
`n` to 1 (negative inputs are silently treated as base cases: no
recursion, no failure). -/
theorem fib_memo_base_case (c : FCache) (n : Int)
    (hr : Reachable c) (h : n ≤ 1) :
    (fib_memo c n).1 = 1 ∧ lookupKey n (fib_memo c n).2 = some 1 := by
  have ht : fib_memo_fuel (n.toNat + 1) c n = some (fib_memo c n) :=
    fib_memo_total (by omega)
  obtain ⟨hv, _, hlook⟩ := fib_memo_fuel_good _ _ _ _ (reach_good hr) ht
  rw [fibInt_of_le_one h] at hv
  refine ⟨hv, ?_⟩
  rw [hlook, hv]

/-- Witness for C9 at the negative input `n = -5` on the empty table. -/
theorem fib_memo_base_case_witness :
    (fib_memo ([] : FCache) (-5)).1 = 1
    ∧ lookupKey (-5 : Int) (fib_memo ([] : FCache) (-5)).2 = some 1 :=
  fib_memo_base_case [] (-5) Reachable.nil (by decide)

